import Mathlib

/-!
Shallow embedding of the P2P-Blockchain ledger core
(`blockchain.py` together with the endpoint logic of `node.py`).

Modelling choices:
* SHA-256 digests are abstracted: every operation is parameterized by a
  block-hash function `H : HashInput → String` (standing for
  `sha256(json.dumps(...)).hexdigest()` on the five hashed block fields) and
  a transaction-id function `Htx` (standing for `Transaction.calculate_txid`).
* Python `float` amounts and balances are modelled as rationals.
* The Python `dict` balance table is modelled as an insertion-ordered
  association list with `dict.get` / `dict.__setitem__` semantics.
* `time.time()` timestamps are passed in as explicit `Nat` parameters.
* The unbounded proof-of-work `while` loop of `mine_block` is modelled as
  `Nat.find` on the (decidable) success predicate, under the hypothesis that
  some nonce succeeds; it returns the least such nonce, exactly as the loop
  that starts at nonce 0 and increments by 1 does.
-/

/-- A transaction (`Transaction` in `blockchain.py`). -/
structure Transaction where
  sender : String
  recipient : String
  amount : Rat
  timestamp : Nat
  txid : String
  deriving DecidableEq, Repr

/-- A block (`Block` in `blockchain.py`). The `hash` field stores the digest
assigned at construction or during mining; it is distinct from the recomputed
digest of the other fields. -/
structure Block where
  index : Nat
  timestamp : Nat
  transactions : List Transaction
  previous_hash : String
  nonce : Nat
  hash : String
  deriving DecidableEq, Repr

instance : Inhabited Block := ⟨⟨0, 0, [], "", 0, ""⟩⟩

/-- The content hashed by `Block.calculate_hash`: the five block fields other
than the stored `hash` itself (serialized canonically in the source). -/
structure HashInput where
  index : Nat
  timestamp : Nat
  transactions : List Transaction
  previous_hash : String
  nonce : Nat
  deriving DecidableEq, Repr

/-- `Block.calculate_hash`: digest of the block's own five content fields. -/
def Block.calculate_hash (H : HashInput → String) (b : Block) : String :=
  H ⟨b.index, b.timestamp, b.transactions, b.previous_hash, b.nonce⟩

/-- Balance table: Python `dict` keyed by identity, insertion ordered. -/
abbrev Balances := List (String × Rat)

/-- `dict.get(k, 0)`. -/
def bget : Balances → String → Rat
  | [], _ => 0
  | (k', v) :: rest, k => if k' = k then v else bget rest k

/-- `dict[k] = v`: replace in place if the key exists, else append. -/
def bset : Balances → String → Rat → Balances
  | [], k, v => [(k, v)]
  | (k', v') :: rest, k, v =>
      if k' = k then (k, v) :: rest else (k', v') :: bset rest k v

/-- The per-transaction balance update used identically by
`Blockchain.mine_block` and `Blockchain.recalculate_balances`:
debit the sender unless it is `"MINING"`, credit the recipient. -/
def applyTx (bs : Balances) (tx : Transaction) : Balances :=
  let bs1 :=
    if tx.sender = "MINING" then bs
    else bset bs tx.sender (bget bs tx.sender - tx.amount)
  bset bs1 tx.recipient (bget bs1 tx.recipient + tx.amount)

/-- Fold one block's transactions into a balance table. -/
def applyBlock (bs : Balances) (b : Block) : Balances :=
  b.transactions.foldl applyTx bs

/-- `Blockchain.recalculate_balances`: replay every block's transactions in
chain order starting from the empty table. -/
def recalculate_balances (c : List Block) : Balances :=
  c.foldl applyBlock []

/-- The ledger state owned by the `Blockchain` class: chain, static difficulty,
mining-reward constant, mempool and derived balance table. (The peer set is
not part of the claims' state: peer-fetched chains are passed to
`resolve_conflicts` explicitly.) -/
structure Blockchain where
  chain : List Block
  difficulty : Nat
  mining_reward : Rat
  mempool : List Transaction
  balances : Balances
  deriving DecidableEq, Repr

/-- `Blockchain.create_genesis_block`: index 0, no transactions,
previous-hash `"0"`, nonce 0, hash computed from those fields. -/
def create_genesis_block (H : HashInput → String) (ts : Nat) : Block :=
  { index := 0, timestamp := ts, transactions := [], previous_hash := "0",
    nonce := 0, hash := H ⟨0, ts, [], "0", 0⟩ }

/-- `Blockchain.__init__`: genesis-only chain, empty mempool, empty balances. -/
def Blockchain.init (H : HashInput → String) (difficulty : Nat)
    (mining_reward : Rat) (ts : Nat) : Blockchain :=
  { chain := [create_genesis_block H ts], difficulty := difficulty,
    mining_reward := mining_reward, mempool := [], balances := [] }

/-- `Blockchain.get_last_block`: `self.chain[-1]` (chains are never empty in
any reachable state; the default is never hit there). -/
def Blockchain.get_last_block (st : Blockchain) : Block :=
  st.chain.getLastD default

/-- `Blockchain.add_transaction`: for a non-`"MINING"` sender, reject when the
sender's table balance (absent keys read as 0) is below the amount; otherwise
append to the mempool and report success. -/
def Blockchain.add_transaction (st : Blockchain) (tx : Transaction) :
    Blockchain × Bool :=
  if tx.sender ≠ "MINING" ∧ bget st.balances tx.sender < tx.amount then
    (st, false)
  else
    ({ st with mempool := st.mempool ++ [tx] }, true)

/-- The string `"0" * difficulty`. -/
def zeros (d : Nat) : String := String.mk (List.replicate d '0')

/-- Python `s.startswith(p)`: `p`'s characters are an initial segment of
`s`'s. -/
def str_startswith (s p : String) : Bool :=
  List.isPrefixOf p.data s.data

/-- The proof-of-work predicate of the mining loop:
`new_block.hash.startswith("0" * self.difficulty)`. -/
def powOk (H : HashInput → String) (d : Nat) (inp : HashInput) : Bool :=
  str_startswith (H inp) (zeros d)

/-- The reward transaction appended by `mine_block`:
`Transaction(sender="MINING", recipient=miner_address, amount=self.mining_reward)`. -/
def reward_tx (Htx : String → String → Rat → Nat → String) (miner : String)
    (amount : Rat) (ts : Nat) : Transaction :=
  { sender := "MINING", recipient := miner, amount := amount, timestamp := ts,
    txid := Htx "MINING" miner amount ts }

/-- The transaction list of the block being mined: the mempool snapshot
followed by the reward transaction. -/
def mined_txs (Htx : String → String → Rat → Nat → String) (st : Blockchain)
    (miner : String) (tsTx : Nat) : List Transaction :=
  st.mempool ++ [reward_tx Htx miner st.mining_reward tsTx]

/-- The hash input of the candidate block at a given nonce. -/
def mine_input (Htx : String → String → Rat → Nat → String) (st : Blockchain)
    (miner : String) (tsTx tsB n : Nat) : HashInput :=
  { index := st.get_last_block.index + 1, timestamp := tsB,
    transactions := mined_txs Htx st miner tsTx,
    previous_hash := st.get_last_block.hash, nonce := n }

/-- `Blockchain.mine_block`: snapshot the mempool, append the reward
transaction, build the candidate block on top of the head, search for the
least nonce satisfying the proof-of-work predicate (the loop starts at
nonce 0 and increments), append the block, fold its transactions into the
balance table, and clear the mempool. `hp` asserts the search terminates. -/
def Blockchain.mine_block (H : HashInput → String)
    (Htx : String → String → Rat → Nat → String) (st : Blockchain)
    (miner : String) (tsTx tsB : Nat)
    (hp : ∃ n, powOk H st.difficulty (mine_input Htx st miner tsTx tsB n) = true) :
    Blockchain × Block :=
  let n := Nat.find hp
  let b : Block :=
    { index := st.get_last_block.index + 1, timestamp := tsB,
      transactions := mined_txs Htx st miner tsTx,
      previous_hash := st.get_last_block.hash, nonce := n,
      hash := H (mine_input Htx st miner tsTx tsB n) }
  ({ st with chain := st.chain ++ [b],
             balances := applyBlock st.balances b,
             mempool := [] }, b)

/-- `Blockchain.validate_chain` on an explicit chain: for each adjacent pair
starting at index 1, check the hash link and the self-consistency of the
stored hash. (Every call site in the repository passes a nonempty chain
explicitly or the ledger's own chain.) -/
def validate_chain (H : HashInput → String) : List Block → Bool
  | prev :: cur :: rest =>
      (decide (cur.previous_hash = prev.hash) &&
        decide (cur.hash = Block.calculate_hash H cur)) &&
      validate_chain H (cur :: rest)
  | _ => true

/-- `Blockchain.replace_chain`: install the candidate iff it is strictly
longer than the current chain and validates; on success swap the chain,
recompute balances by full replay, and clear the mempool. -/
def Blockchain.replace_chain (H : HashInput → String) (st : Blockchain)
    (new_chain : List Block) : Blockchain × Bool :=
  if decide (st.chain.length < new_chain.length) && validate_chain H new_chain then
    ({ st with chain := new_chain,
               balances := recalculate_balances new_chain,
               mempool := [] }, true)
  else
    (st, false)

/-- `receive_block` (`node.py`, endpoint `/blocks/new`): accept iff the
block's previous-hash equals the current head's hash and its stored hash is
self-consistent; on acceptance append it, recompute balances over the grown
chain, and clear the mempool; otherwise reject with the state untouched. -/
def receive_block (H : HashInput → String) (st : Blockchain) (b : Block) :
    Blockchain × Bool :=
  if decide (b.previous_hash = st.get_last_block.hash) &&
      decide (b.hash = Block.calculate_hash H b) then
    ({ st with chain := st.chain ++ [b],
               balances := recalculate_balances (st.chain ++ [b]),
               mempool := [] }, true)
  else
    (st, false)

/-- The peer-scanning loop of `resolve_conflicts` (`node.py`): keep a fetched
chain as the new best candidate only if its length strictly exceeds the best
length seen so far and it passes `validate_chain`. -/
def resolve_scan (H : HashInput → String) (maxLen : Nat)
    (best : Option (List Block)) : List (List Block) → Option (List Block)
  | [] => best
  | c :: rest =>
      if decide (maxLen < c.length) && validate_chain H c then
        resolve_scan H c.length (some c) rest
      else
        resolve_scan H maxLen best rest

/-- `resolve_conflicts` (`node.py`): scan the fetched peer chains starting
from the local chain's length; if a best candidate was found, call
`replace_chain` on it and report `true`, else report `false`. -/
def resolve_conflicts (H : HashInput → String) (st : Blockchain)
    (fetched : List (List Block)) : Blockchain × Bool :=
  match resolve_scan H st.chain.length none fetched with
  | some nc => ((st.replace_chain H nc).1, true)
  | none => (st, false)

/-- One public ledger operation, as driven by the node endpoints:
transaction submission, mining, block reception, or chain replacement. -/
inductive Step (H : HashInput → String)
    (Htx : String → String → Rat → Nat → String) : Blockchain → Blockchain → Prop
  | add_tx (st : Blockchain) (tx : Transaction) :
      Step H Htx st (st.add_transaction tx).1
  | mine (st : Blockchain) (miner : String) (tsTx tsB : Nat)
      (hp : ∃ n, powOk H st.difficulty (mine_input Htx st miner tsTx tsB n) = true) :
      Step H Htx st (st.mine_block H Htx miner tsTx tsB hp).1
  | recv (st : Blockchain) (b : Block) :
      Step H Htx st (receive_block H st b).1
  | replace (st : Blockchain) (c : List Block) :
      Step H Htx st (st.replace_chain H c).1

/-- Ledger states reachable from the freshly initialized ledger by any
sequence of public operations. -/
inductive Reachable (H : HashInput → String)
    (Htx : String → String → Rat → Nat → String) (d : Nat) (r : Rat)
    (ts0 : Nat) : Blockchain → Prop
  | init : Reachable H Htx d r ts0 (Blockchain.init H d r ts0)
  | step {s s' : Blockchain} : Reachable H Htx d r ts0 s → Step H Htx s s' →
      Reachable H Htx d r ts0 s'

/-! ### Concrete hash functions used to instantiate the abstract digests -/

/-- A concrete block-hash function whose digests are always `"0"`. -/
def hashZero : HashInput → String := fun _ => "0"

/-- A concrete block-hash function whose digests are always `"a"` (no digest
has a leading zero hex digit). -/
def hashA : HashInput → String := fun _ => "a"

/-- A concrete transaction-id function. -/
def txidT : String → String → Rat → Nat → String := fun _ _ _ _ => "t"

/-- An initial ledger with difficulty 1 and reward 10 over `hashZero`. -/
def stZ : Blockchain := Blockchain.init hashZero 1 10 0

/-- An initial ledger with difficulty 1 and reward 10 over `hashA`. -/
def stA : Blockchain := Blockchain.init hashA 1 10 0

/-! ### C5 / C6: transaction intake -/

/-- C5: `add_transaction` accepts unconditionally when the sender is
`"MINING"`; otherwise it rejects exactly when the sender's table balance
(absent senders read as 0) is below the amount; rejection leaves the whole
state unchanged, and acceptance appends the transaction at the end of the
mempool and reports success. -/
theorem add_transaction_spec (st : Blockchain) (tx : Transaction) :
    (tx.sender = "MINING" →
      st.add_transaction tx = ({ st with mempool := st.mempool ++ [tx] }, true)) ∧
    (tx.sender ≠ "MINING" →
      (((st.add_transaction tx).2 = false) ↔ bget st.balances tx.sender < tx.amount) ∧
      ((st.add_transaction tx).2 = false → (st.add_transaction tx).1 = st) ∧
      ((st.add_transaction tx).2 = true →
        (st.add_transaction tx).1 = { st with mempool := st.mempool ++ [tx] })) := by
  unfold Blockchain.add_transaction
  by_cases hm : tx.sender = "MINING" <;>
    by_cases hb : bget st.balances tx.sender < tx.amount <;>
      simp [hm, hb]

/-- C5 witness: from the initial ledger, a transfer of 1 from the
zero-balance sender `"Z"` is rejected and the state is unchanged. -/
theorem add_transaction_spec_witness :
    (stZ.add_transaction ⟨"Z", "X", 1, 0, "t"⟩).2 = false ∧
    (stZ.add_transaction ⟨"Z", "X", 1, 0, "t"⟩).1 = stZ := by
  have h := (add_transaction_spec stZ ⟨"Z", "X", 1, 0, "t"⟩).2 (by decide)
  have hrej : (stZ.add_transaction ⟨"Z", "X", 1, 0, "t"⟩).2 = false :=
    h.1.mpr (by decide)
  exact ⟨hrej, h.2.1 hrej⟩

/-- C6 counterexample: a negative-amount transaction from the non-`"MINING"`
sender `"A"` (balance 0) is accepted by `add_transaction` and enters the
mempool: the claimed rejection of negative amounts does not happen. -/
theorem add_transaction_negative_accepted :
    (⟨"A", "B", -1, 0, "t"⟩ : Transaction).sender ≠ "MINING" ∧
    (⟨"A", "B", -1, 0, "t"⟩ : Transaction).amount < 0 ∧
    (stZ.add_transaction ⟨"A", "B", -1, 0, "t"⟩).2 = true ∧
    (stZ.add_transaction ⟨"A", "B", -1, 0, "t"⟩).1.mempool =
      [⟨"A", "B", -1, 0, "t"⟩] := by
  refine ⟨by decide, by decide, ?_, ?_⟩ <;> decide

/-- C6 amended: `add_transaction` never checks the amount's sign. A
negative-amount transaction from a non-`"MINING"` sender is rejected only when
the sender's table balance is below the (negative) amount; in particular,
whenever that balance is non-negative the transaction is accepted and enters
the mempool. -/
theorem add_transaction_no_sign_check (st : Blockchain) (tx : Transaction)
    (h1 : tx.sender ≠ "MINING") (h2 : tx.amount < 0)
    (h3 : 0 ≤ bget st.balances tx.sender) :
    (st.add_transaction tx).2 = true ∧
    (st.add_transaction tx).1.mempool = st.mempool ++ [tx] := by
  have hnb : ¬ bget st.balances tx.sender < tx.amount := by
    exact not_lt.mpr (le_of_lt (lt_of_lt_of_le h2 h3))
  unfold Blockchain.add_transaction
  simp [h1, hnb]

/-- C6 amended-claim witness: the negative transfer of `-1` from the
zero-balance sender `"A"` is accepted. -/
theorem add_transaction_no_sign_check_witness :
    (stZ.add_transaction ⟨"A", "B", -1, 0, "t"⟩).2 = true ∧
    (stZ.add_transaction ⟨"A", "B", -1, 0, "t"⟩).1.mempool =
      stZ.mempool ++ [⟨"A", "B", -1, 0, "t"⟩] :=
  add_transaction_no_sign_check stZ ⟨"A", "B", -1, 0, "t"⟩
    (by decide) (by decide) (by decide)

/-! ### C2: chain replacement -/

/-- C2: `replace_chain` installs the candidate iff it is strictly longer than
the current chain and passes validation; on success the chain is swapped, the
balance table is fully recomputed by replaying the new chain, the mempool is
cleared and `true` is returned; otherwise `false` is returned and the state
(chain, balances, mempool) is unchanged. -/
theorem replace_chain_spec (H : HashInput → String) (st : Blockchain)
    (c : List Block) :
    ((st.replace_chain H c).2 = true ↔
      (st.chain.length < c.length ∧ validate_chain H c = true)) ∧
    ((st.replace_chain H c).2 = true →
      (st.replace_chain H c).1 =
        { st with chain := c, balances := recalculate_balances c,
                  mempool := [] }) ∧
    ((st.replace_chain H c).2 = false → (st.replace_chain H c).1 = st) := by
  unfold Blockchain.replace_chain
  by_cases hl : st.chain.length < c.length <;>
    cases hv : validate_chain H c <;> simp [hl, hv]

/-- C2 witness: an equal-length candidate (the initial chain itself) is not
installed and the state is unchanged. -/
theorem replace_chain_spec_witness :
    (stA.replace_chain hashA stA.chain).2 = false ∧
    (stA.replace_chain hashA stA.chain).1 = stA := by
  have h := replace_chain_spec hashA stA stA.chain
  have hf : (stA.replace_chain hashA stA.chain).2 = false := by
    cases hb : (stA.replace_chain hashA stA.chain).2 with
    | false => rfl
    | true => exact absurd (h.1.mp hb).1 (by decide)
  exact ⟨hf, h.2.2 hf⟩

/-! ### C7: block reception -/

/-- C7: `receive_block` accepts a block iff its previous-hash equals the
current head's stored hash and its stored hash equals the recomputed digest of
its own fields; on acceptance the block is appended to the chain; on rejection
the state is unchanged — in particular the chain length is unchanged. -/
theorem receive_block_spec (H : HashInput → String) (st : Blockchain)
    (b : Block) :
    ((receive_block H st b).2 = true ↔
      (b.previous_hash = st.get_last_block.hash ∧
        b.hash = Block.calculate_hash H b)) ∧
    ((receive_block H st b).2 = true →
      (receive_block H st b).1.chain = st.chain ++ [b]) ∧
    ((receive_block H st b).2 = false →
      (receive_block H st b).1 = st ∧
      (receive_block H st b).1.chain.length = st.chain.length) := by
  unfold receive_block
  by_cases h1 : b.previous_hash = st.get_last_block.hash <;>
    by_cases h2 : b.hash = Block.calculate_hash H b <;> simp [h1, h2]

/-- C7 witness: a block whose previous-hash does not match the head's hash is
rejected and the chain length is unchanged. -/
theorem receive_block_spec_witness :
    (receive_block hashA stA ⟨1, 0, [], "nomatch", 0, "a"⟩).2 = false ∧
    (receive_block hashA stA ⟨1, 0, [], "nomatch", 0, "a"⟩).1 = stA := by
  have h := receive_block_spec hashA stA ⟨1, 0, [], "nomatch", 0, "a"⟩
  have hf : (receive_block hashA stA ⟨1, 0, [], "nomatch", 0, "a"⟩).2 = false := by
    cases hb : (receive_block hashA stA ⟨1, 0, [], "nomatch", 0, "a"⟩).2 with
    | false => rfl
    | true => exact absurd (h.1.mp hb).1 (by decide)
  exact ⟨hf, (h.2.2 hf).1⟩

/-! ### C1: mining -/

/-- C1: whenever the proof-of-work search terminates (hypothesis `hp`, the
only way the source's unbounded `while` loop can return), `mine_block`
returns a block — even when the mempool is empty — that is appended to the
chain, has index one more than the previous head's and previous-hash equal to
the previous head's hash, carries the snapshotted mempool transactions
followed by exactly one reward transaction with sender `"MINING"`, recipient
`miner` and amount the mining-reward constant, has a hash with at least
`difficulty` leading zero hex characters, and the mempool is empty
afterwards. -/
theorem mine_block_spec (H : HashInput → String)
    (Htx : String → String → Rat → Nat → String) (st : Blockchain)
    (miner : String) (tsTx tsB : Nat)
    (hp : ∃ n, powOk H st.difficulty (mine_input Htx st miner tsTx tsB n) = true) :
    (st.mine_block H Htx miner tsTx tsB hp).1.chain =
      st.chain ++ [(st.mine_block H Htx miner tsTx tsB hp).2] ∧
    (st.mine_block H Htx miner tsTx tsB hp).2.index =
      st.get_last_block.index + 1 ∧
    (st.mine_block H Htx miner tsTx tsB hp).2.previous_hash =
      st.get_last_block.hash ∧
    (st.mine_block H Htx miner tsTx tsB hp).2.transactions =
      st.mempool ++ [reward_tx Htx miner st.mining_reward tsTx] ∧
    (reward_tx Htx miner st.mining_reward tsTx).sender = "MINING" ∧
    (reward_tx Htx miner st.mining_reward tsTx).recipient = miner ∧
    (reward_tx Htx miner st.mining_reward tsTx).amount = st.mining_reward ∧
    str_startswith (st.mine_block H Htx miner tsTx tsB hp).2.hash
      (zeros st.difficulty) = true ∧
    (st.mine_block H Htx miner tsTx tsB hp).1.mempool = [] := by
  refine ⟨rfl, rfl, rfl, rfl, rfl, rfl, rfl, ?_, rfl⟩
  exact Nat.find_spec hp

/-- C1 witness: mining on the fresh difficulty-1 ledger over `hashZero`
(where nonce 0 already satisfies the predicate). -/
theorem mine_block_spec_witness :
    (stZ.mine_block hashZero txidT "M1" 0 0 ⟨0, by decide⟩).1.chain =
      stZ.chain ++ [(stZ.mine_block hashZero txidT "M1" 0 0 ⟨0, by decide⟩).2] ∧
    (stZ.mine_block hashZero txidT "M1" 0 0 ⟨0, by decide⟩).2.index =
      stZ.get_last_block.index + 1 ∧
    (stZ.mine_block hashZero txidT "M1" 0 0 ⟨0, by decide⟩).2.previous_hash =
      stZ.get_last_block.hash ∧
    (stZ.mine_block hashZero txidT "M1" 0 0 ⟨0, by decide⟩).2.transactions =
      stZ.mempool ++ [reward_tx txidT "M1" stZ.mining_reward 0] ∧
    (reward_tx txidT "M1" stZ.mining_reward 0).sender = "MINING" ∧
    (reward_tx txidT "M1" stZ.mining_reward 0).recipient = "M1" ∧
    (reward_tx txidT "M1" stZ.mining_reward 0).amount = stZ.mining_reward ∧
    str_startswith (stZ.mine_block hashZero txidT "M1" 0 0 ⟨0, by decide⟩).2.hash
      (zeros stZ.difficulty) = true ∧
    (stZ.mine_block hashZero txidT "M1" 0 0 ⟨0, by decide⟩).1.mempool = [] :=
  mine_block_spec hashZero txidT stZ "M1" 0 0 ⟨0, by decide⟩

/-! ### Validation: indexed characterization -/

/-- The per-index check of `validate_chain` at position `i ≥ 1`: the hash
link to the predecessor and the self-consistency of the stored hash. -/
def chain_ok_at (H : HashInput → String) (c : List Block) (i : Nat) : Prop :=
  (c.getD i default).previous_hash = (c.getD (i - 1) default).hash ∧
  (c.getD i default).hash = Block.calculate_hash H (c.getD i default)

theorem getD_cons_succ (a : Block) (l : List Block) (n : Nat) :
    (a :: l).getD (n + 1) default = l.getD n default := rfl

theorem chain_ok_at_cons (H : HashInput → String) (a : Block) (l : List Block)
    (i : Nat) (h : 1 ≤ i) : chain_ok_at H (a :: l) (i + 1) ↔ chain_ok_at H l i := by
  obtain ⟨j, rfl⟩ : ∃ j, i = j + 1 := ⟨i - 1, by omega⟩
  simp only [chain_ok_at, getD_cons_succ, Nat.add_sub_cancel]

theorem validate_chain_eq_true_iff (H : HashInput → String) (c : List Block) :
    validate_chain H c = true ↔ ∀ i, 1 ≤ i → i < c.length → chain_ok_at H c i := by
  induction c with
  | nil =>
      constructor
      · intro _ i h1 h2; simp at h2
      · intro _; rfl
  | cons a t ih =>
      cases t with
      | nil =>
          constructor
          · intro _ i h1 h2; simp at h2; omega
          · intro _; rfl
      | cons b t' =>
          rw [validate_chain]
          simp only [Bool.and_eq_true, decide_eq_true_eq]
          constructor
          · rintro ⟨⟨hl, hh⟩, hrest⟩ i h1 h2
            rcases Nat.lt_or_ge i 2 with hi | hi
            · have hi1 : i = 1 := by omega
              subst hi1
              exact ⟨hl, hh⟩
            · obtain ⟨j, rfl⟩ : ∃ j, i = j + 1 := ⟨i - 1, by omega⟩
              have hj : 1 ≤ j := by omega
              rw [chain_ok_at_cons H a (b :: t') j hj]
              refine (ih.mp hrest) j hj ?_
              simpa using Nat.lt_of_succ_lt_succ (by simpa using h2)
          · intro hP
            have h1 := hP 1 (by omega) (by simp)
            refine ⟨⟨h1.1, h1.2⟩, ih.mpr ?_⟩
            intro j hj hlt
            rw [← chain_ok_at_cons H a (b :: t') j hj]
            refine hP (j + 1) (by omega) ?_
            simpa using Nat.succ_lt_succ hlt

theorem validate_chain_append (H : HashInput → String) (b : Block)
    (hb2 : b.hash = Block.calculate_hash H b) :
    ∀ c : List Block, c ≠ [] → validate_chain H c = true →
      b.previous_hash = (c.getLastD default).hash →
      validate_chain H (c ++ [b]) = true := by
  intro c
  induction c with
  | nil => intro h _ _; exact absurd rfl h
  | cons a t ih =>
      intro _ hc hb1
      cases t with
      | nil =>
          show validate_chain H [a, b] = true
          have hab : b.previous_hash = a.hash := hb1
          simp [validate_chain, hab, hb2]
      | cons a' t' =>
          show validate_chain H (a :: a' :: (t' ++ [b])) = true
          rw [validate_chain] at hc ⊢
          simp only [Bool.and_eq_true, decide_eq_true_eq] at hc ⊢
          exact ⟨hc.1, ih (by simp) hc.2 hb1⟩

/-- Ledger states produced from the fresh ledger solely by repeated
`mine_block` calls. -/
inductive MinedOnly (H : HashInput → String)
    (Htx : String → String → Rat → Nat → String) (d : Nat) (r : Rat)
    (ts0 : Nat) : Blockchain → Prop
  | init : MinedOnly H Htx d r ts0 (Blockchain.init H d r ts0)
  | mine {s : Blockchain} (miner : String) (tsTx tsB : Nat)
      (hp : ∃ n, powOk H s.difficulty (mine_input Htx s miner tsTx tsB n) = true) :
      MinedOnly H Htx d r ts0 s →
      MinedOnly H Htx d r ts0 (s.mine_block H Htx miner tsTx tsB hp).1

theorem mined_only_chain_valid (H : HashInput → String)
    (Htx : String → String → Rat → Nat → String) (d : Nat) (r : Rat) (ts0 : Nat)
    (s : Blockchain) (hs : MinedOnly H Htx d r ts0 s) :
    s.chain ≠ [] ∧ validate_chain H s.chain = true := by
  induction hs with
  | init => exact ⟨by simp [Blockchain.init], rfl⟩
  | mine miner tsTx tsB hp _ ih =>
      refine ⟨by simp [Blockchain.mine_block], ?_⟩
      exact validate_chain_append H _ rfl _ ih.1 ih.2 rfl

/-- Replace the `previous_hash` field of the block at position `i`. -/
def tamper_prev (c : List Block) (i : Nat) (v : String) : List Block :=
  c.set i { c.getD i default with previous_hash := v }

/-! ### C3: validation -/

/-- C3 (amended): `validate_chain` returns true iff every position `i ≥ 1`
links to its predecessor's stored hash and stores a self-consistent hash; a
single-block chain is trivially valid; any chain produced solely by repeated
`mine_block` calls from the fresh ledger is valid; and tampering the
previous-hash of any block at position `i ≥ 1` of a valid chain makes
validation fail. (Tampering the first block's previous-hash is not checked:
see the counterexample.) -/
theorem validate_chain_spec (H : HashInput → String)
    (Htx : String → String → Rat → Nat → String) (d : Nat) (r : Rat) (ts0 : Nat) :
    (∀ c : List Block, validate_chain H c = true ↔
        ∀ j, 1 ≤ j → j < c.length → chain_ok_at H c j) ∧
    (∀ g : Block, validate_chain H [g] = true) ∧
    (∀ s : Blockchain, MinedOnly H Htx d r ts0 s →
        validate_chain H s.chain = true) ∧
    (∀ (c : List Block) (i : Nat) (v : String), 1 ≤ i → i < c.length →
        validate_chain H c = true → v ≠ (c.getD i default).previous_hash →
        validate_chain H (tamper_prev c i v) = false) := by
  refine ⟨validate_chain_eq_true_iff H, fun g => rfl,
    fun s hs => (mined_only_chain_valid H Htx d r ts0 s hs).2, ?_⟩
  intro c i v h1 h2 hv hvne
  cases htam : validate_chain H (tamper_prev c i v) with
  | false => rfl
  | true =>
      exfalso
      have hok := (validate_chain_eq_true_iff H _).mp htam i h1
        (by simpa [tamper_prev] using h2)
      have horig := (validate_chain_eq_true_iff H c).mp hv i h1 h2
      have hgi : (tamper_prev c i v).getD i default =
          { c.getD i default with previous_hash := v } := by
        simp [tamper_prev, List.getD_eq_getElem?_getD, List.getElem?_set_self, h2]
      have hgi1 : (tamper_prev c i v).getD (i - 1) default = c.getD (i - 1) default := by
        have hne : i ≠ i - 1 := by omega
        simp [tamper_prev, List.getD_eq_getElem?_getD, List.getElem?_set_ne, hne]
      rw [chain_ok_at, hgi, hgi1] at hok
      exact hvne (hok.1.trans horig.1.symm)

/-- The genesis block over `hashA` and a self-consistent successor. -/
def gA : Block := create_genesis_block hashA 0

/-- A block extending `gA`, self-consistent under `hashA`. -/
def bA : Block := ⟨1, 0, [], "a", 0, "a"⟩

/-- C3 counterexample: on the valid two-block chain `[gA, bA]`, tampering the
genesis block's previous-hash from `"0"` to `"1"` goes undetected —
`validate_chain` still returns true, because the loop starts at index 1 and
never inspects the first block. -/
theorem tamper_genesis_prev_hash_undetected :
    validate_chain hashA [gA, bA] = true ∧
    tamper_prev [gA, bA] 0 "1" = [{ gA with previous_hash := "1" }, bA] ∧
    "1" ≠ gA.previous_hash ∧
    validate_chain hashA (tamper_prev [gA, bA] 0 "1") = true := by
  refine ⟨?_, ?_, ?_, ?_⟩ <;> decide

/-- C3 witness: the fresh ledger's chain (mined-only, zero mines) validates,
and tampering position 1 of the valid chain `[gA, bA]` is detected. -/
theorem validate_chain_spec_witness :
    validate_chain hashA stA.chain = true ∧
    validate_chain hashA (tamper_prev [gA, bA] 1 "q") = false :=
  ⟨(validate_chain_spec hashA txidT 1 10 0).2.2.1 stA MinedOnly.init,
    (validate_chain_spec hashA txidT 1 10 0).2.2.2 [gA, bA] 1 "q"
      (by decide) (by decide) (by decide) (by decide)⟩

/-! ### C10: validation ignores proof-of-work -/

/-- C10: `validate_chain` never checks the difficulty predicate. Any chain
whose adjacent blocks link correctly and whose stored hashes are
self-consistent validates even if no block's hash has a single leading zero
hex digit, and `replace_chain` installs such a chain whenever it is strictly
longer than the local chain. -/
theorem validate_chain_ignores_pow (H : HashInput → String) (st : Blockchain)
    (c : List Block)
    (hok : ∀ i, 1 ≤ i → i < c.length → chain_ok_at H c i)
    (hnz : ∀ b ∈ c, str_startswith b.hash (zeros 1) = false) :
    validate_chain H c = true ∧
    (st.chain.length < c.length →
      (st.replace_chain H c).2 = true ∧ (st.replace_chain H c).1.chain = c) := by
  have hv : validate_chain H c = true := (validate_chain_eq_true_iff H c).mpr hok
  refine ⟨hv, fun hl => ?_⟩
  unfold Blockchain.replace_chain
  simp [hl, hv]

/-- C10 witness: the chain `[gA, bA]`, none of whose hashes has a leading
zero, validates and is installed over the shorter local chain. -/
theorem validate_chain_ignores_pow_witness :
    validate_chain hashA [gA, bA] = true ∧
    (stA.chain.length < ([gA, bA] : List Block).length →
      (stA.replace_chain hashA [gA, bA]).2 = true ∧
      (stA.replace_chain hashA [gA, bA]).1.chain = [gA, bA]) :=
  validate_chain_ignores_pow hashA stA [gA, bA]
    (by
      intro i h1 h2
      have h2' : i < 2 := by simpa using h2
      have hi : i = 1 := by omega
      subst hi
      exact ⟨by decide, by decide⟩)
    (by decide)

/-! ### C9: fork resolution -/

theorem resolve_scan_some (H : HashInput → String) :
    ∀ (cs : List (List Block)) (m : Nat) (best : Option (List Block))
      (c : List Block), resolve_scan H m best cs = some c →
      best = some c ∨ (c ∈ cs ∧ m < c.length ∧ validate_chain H c = true) := by
  intro cs
  induction cs with
  | nil => intro m best c h; exact Or.inl h
  | cons c0 rest ih =>
      intro m best c h
      rw [resolve_scan] at h
      by_cases hc : (decide (m < c0.length) && validate_chain H c0) = true
      · rw [if_pos hc] at h
        simp only [Bool.and_eq_true, decide_eq_true_eq] at hc
        rcases ih c0.length (some c0) c h with h1 | h2
        · cases h1
          exact Or.inr ⟨List.mem_cons_self c0 rest, hc.1, hc.2⟩
        · exact Or.inr ⟨List.mem_cons_of_mem c0 h2.1,
            Nat.lt_trans hc.1 h2.2.1, h2.2.2⟩
      · rw [if_neg hc] at h
        rcases ih m best c h with h1 | h2
        · exact Or.inl h1
        · exact Or.inr ⟨List.mem_cons_of_mem c0 h2.1, h2.2⟩

/-- C9: `resolve_conflicts` keeps as best candidate only fetched chains that
are strictly longer than the best length seen (starting at the local chain's
length) and validate; it reports `true` iff the local chain was actually
replaced — by a fetched, valid, strictly longer candidate — and whenever it
reports `false` the state is unchanged. -/
theorem resolve_conflicts_spec (H : HashInput → String) (st : Blockchain)
    (fetched : List (List Block)) :
    ((resolve_conflicts H st fetched).2 = false →
      (resolve_conflicts H st fetched).1 = st) ∧
    ((resolve_conflicts H st fetched).2 = true →
      (resolve_conflicts H st fetched).1.chain ∈ fetched ∧
      st.chain.length < (resolve_conflicts H st fetched).1.chain.length ∧
      validate_chain H (resolve_conflicts H st fetched).1.chain = true) ∧
    ((resolve_conflicts H st fetched).2 = true ↔
      (resolve_conflicts H st fetched).1.chain ≠ st.chain) := by
  unfold resolve_conflicts
  cases hscan : resolve_scan H st.chain.length none fetched with
  | none => simp
  | some nc =>
      rcases resolve_scan_some H fetched st.chain.length none nc hscan with
        h | ⟨hmem, hlen, hval⟩
      · exact absurd h (by simp)
      · have hcond : (decide (st.chain.length < nc.length) &&
            validate_chain H nc) = true := by simp [hlen, hval]
        have hrep2 : (st.replace_chain H nc).2 = true := by
          unfold Blockchain.replace_chain
          rw [if_pos hcond]
        have hrep1 : (st.replace_chain H nc).1.chain = nc := by
          unfold Blockchain.replace_chain
          rw [if_pos hcond]
        have hne : nc ≠ st.chain := by
          intro he
          rw [he] at hlen
          exact Nat.lt_irrefl _ hlen
        simp [hrep1, hmem, hlen, hval, hne]

/-- C9 witness: with a single fetched chain `[gA, bA]` (longer and valid),
resolution replaces the local chain. -/
theorem resolve_conflicts_spec_witness :
    ((resolve_conflicts hashA stA [[gA, bA]]).2 = false →
      (resolve_conflicts hashA stA [[gA, bA]]).1 = stA) ∧
    ((resolve_conflicts hashA stA [[gA, bA]]).2 = true →
      (resolve_conflicts hashA stA [[gA, bA]]).1.chain ∈ [[gA, bA]] ∧
      stA.chain.length < (resolve_conflicts hashA stA [[gA, bA]]).1.chain.length ∧
      validate_chain hashA (resolve_conflicts hashA stA [[gA, bA]]).1.chain = true) ∧
    ((resolve_conflicts hashA stA [[gA, bA]]).2 = true ↔
      (resolve_conflicts hashA stA [[gA, bA]]).1.chain ≠ stA.chain) :=
  resolve_conflicts_spec hashA stA [[gA, bA]]

/-! ### C4: the balance table is the replay of the chain -/

theorem recalculate_balances_append (c : List Block) (b : Block) :
    recalculate_balances (c ++ [b]) = applyBlock (recalculate_balances c) b := by
  simp [recalculate_balances, List.foldl_append]

/-- C4: in every reachable ledger state, the balance table equals the fold,
over all transactions of all blocks in chain order, of the debit/credit rule
(debit the sender unless it is `"MINING"`, credit the recipient) — i.e. the
full replay `recalculate_balances` of the chain. In particular `mine_block`'s
incremental update agrees with a full replay of the grown chain. -/
theorem balances_eq_replay (H : HashInput → String)
    (Htx : String → String → Rat → Nat → String) (d : Nat) (r : Rat) (ts0 : Nat)
    (s : Blockchain) (hs : Reachable H Htx d r ts0 s) :
    s.balances = recalculate_balances s.chain := by
  induction hs with
  | init => rfl
  | @step s s' _ hst ih =>
      cases hst with
      | add_tx tx =>
          unfold Blockchain.add_transaction
          split <;> exact ih
      | mine miner tsTx tsB hp =>
          rw [show (s.mine_block H Htx miner tsTx tsB hp).1.chain =
                s.chain ++ [(s.mine_block H Htx miner tsTx tsB hp).2] from rfl,
            recalculate_balances_append, ← ih]
          rfl
      | recv b =>
          unfold receive_block
          split
          · rfl
          · exact ih
      | replace c =>
          unfold Blockchain.replace_chain
          split
          · rfl
          · exact ih

/-- C4 witness: after one mining step from the fresh ledger, the incremental
balance table equals the full replay of the resulting chain. -/
theorem balances_eq_replay_witness :
    (stZ.mine_block hashZero txidT "M1" 0 0 ⟨0, by decide⟩).1.balances =
      recalculate_balances
        (stZ.mine_block hashZero txidT "M1" 0 0 ⟨0, by decide⟩).1.chain :=
  balances_eq_replay hashZero txidT 1 10 0 _
    (Reachable.step Reachable.init (Step.mine stZ "M1" 0 0 ⟨0, by decide⟩))

/-! ### C8: the genesis-first property -/

/-- The public operations other than `replace_chain`. -/
inductive StepNR (H : HashInput → String)
    (Htx : String → String → Rat → Nat → String) : Blockchain → Blockchain → Prop
  | add_tx (st : Blockchain) (tx : Transaction) :
      StepNR H Htx st (st.add_transaction tx).1
  | mine (st : Blockchain) (miner : String) (tsTx tsB : Nat)
      (hp : ∃ n, powOk H st.difficulty (mine_input Htx st miner tsTx tsB n) = true) :
      StepNR H Htx st (st.mine_block H Htx miner tsTx tsB hp).1
  | recv (st : Blockchain) (b : Block) :
      StepNR H Htx st (receive_block H st b).1

/-- Ledger states reachable without ever invoking `replace_chain`. -/
inductive ReachableNR (H : HashInput → String)
    (Htx : String → String → Rat → Nat → String) (d : Nat) (r : Rat)
    (ts0 : Nat) : Blockchain → Prop
  | init : ReachableNR H Htx d r ts0 (Blockchain.init H d r ts0)
  | step {s s' : Blockchain} : ReachableNR H Htx d r ts0 s → StepNR H Htx s s' →
      ReachableNR H Htx d r ts0 s'

theorem headD_append_ne (c : List Block) (b : Block) (h : c ≠ []) :
    (c ++ [b]).headD default = c.headD default := by
  cases c with
  | nil => exact absurd rfl h
  | cons a t => rfl

/-- C8 (amended): in every state reachable by `add_transaction`, `mine_block`
and `receive_block` alone, the chain is nonempty and begins with the genesis
block shape: index 0, no transactions, previous-hash `"0"`. (`replace_chain`
does not preserve this: see the counterexample.) -/
theorem genesis_first_no_replace (H : HashInput → String)
    (Htx : String → String → Rat → Nat → String) (d : Nat) (r : Rat) (ts0 : Nat)
    (s : Blockchain) (hs : ReachableNR H Htx d r ts0 s) :
    s.chain ≠ [] ∧ (s.chain.headD default).index = 0 ∧
    (s.chain.headD default).transactions = [] ∧
    (s.chain.headD default).previous_hash = "0" := by
  induction hs with
  | init => exact ⟨by simp [Blockchain.init], rfl, rfl, rfl⟩
  | @step s s' _ hst ih =>
      obtain ⟨hne, h0, h1, h2⟩ := ih
      cases hst with
      | add_tx tx =>
          unfold Blockchain.add_transaction
          split <;> exact ⟨hne, h0, h1, h2⟩
      | mine miner tsTx tsB hp =>
          have hh : s.chain.headD default =
              (s.mine_block H Htx miner tsTx tsB hp).1.chain.headD default := by
            rw [show (s.mine_block H Htx miner tsTx tsB hp).1.chain =
                  s.chain ++ [(s.mine_block H Htx miner tsTx tsB hp).2] from rfl,
              headD_append_ne s.chain _ hne]
          exact ⟨by simp [Blockchain.mine_block], hh ▸ h0, hh ▸ h1, hh ▸ h2⟩
      | recv b =>
          unfold receive_block
          split
          · have hh : s.chain.headD default =
                (s.chain ++ [b]).headD default := by
              rw [headD_append_ne s.chain b hne]
            exact ⟨by simp, hh ▸ h0, hh ▸ h1, hh ▸ h2⟩
          · exact ⟨hne, h0, h1, h2⟩

/-- A non-genesis first block for a crafted peer chain: index 7, a
transaction, previous-hash `"Z"`. Its stored hash is never inspected by
validation. -/
def bad0 : Block := ⟨7, 0, [⟨"A", "B", 1, 0, "t"⟩], "Z", 0, "h0"⟩

/-- A self-consistent (under `hashA`) successor of `bad0`. -/
def bad1 : Block := ⟨8, 0, [], "h0", 0, "a"⟩

/-- C8 counterexample: from the initial (reachable) state, the public
`replace_chain` operation installs the strictly longer, validating chain
`[bad0, bad1]`, reaching a state whose first block has index 7, a nonempty
transaction list and previous-hash `"Z"` — not the genesis block. -/
theorem replace_chain_breaks_genesis_first :
    Reachable hashA txidT 1 10 0 (stA.replace_chain hashA [bad0, bad1]).1 ∧
    (stA.replace_chain hashA [bad0, bad1]).2 = true ∧
    ((stA.replace_chain hashA [bad0, bad1]).1.chain.headD default).index ≠ 0 ∧
    ((stA.replace_chain hashA [bad0, bad1]).1.chain.headD default).transactions ≠ [] ∧
    ((stA.replace_chain hashA [bad0, bad1]).1.chain.headD default).previous_hash ≠ "0" := by
  refine ⟨Reachable.step Reachable.init (Step.replace stA [bad0, bad1]),
    ?_, ?_, ?_, ?_⟩ <;> decide

/-- C8 amended-claim witness: after the fresh ledger accepts the block `bA`
via `receive_block`, the chain still begins with the genesis block. -/
theorem genesis_first_no_replace_witness :
    (receive_block hashA stA bA).1.chain ≠ [] ∧
    ((receive_block hashA stA bA).1.chain.headD default).index = 0 ∧
    ((receive_block hashA stA bA).1.chain.headD default).transactions = [] ∧
    ((receive_block hashA stA bA).1.chain.headD default).previous_hash = "0" :=
  genesis_first_no_replace hashA txidT 1 10 0 _
    (ReachableNR.step ReachableNR.init (StepNR.recv stA bA))
